import Mathlib

/-!
Verification development for the RF-mindmap graph construction and
enrichment pipeline.

The definitions below are a shallow embedding of the data-transformation
core of the repository, translated from `src/js/main.js` (the CSV-driven
builder `createD3Graph`, the composite key `getLinkId`, the exporter
`saveUrlsToCsv`), `src/src/main.js` (the exporter with CSV escaping and
the add-URL handler of `showUrlManager`), and the unnamed main.js variant
containing `mergeUrlsIntoGraph`.  JavaScript arrays become Lean lists, the
ES `Map` used for the Resource Index becomes an association list with the
same first-key-wins lookup and insertion-order push semantics, and string
splitting/joining is translated character-by-character so that every
definition is executable by `decide`.
-/

namespace RFMindMap

/-- Row of `data/topics.csv` after the header row: columns `Index`, `Topic`
and `Description / Key Concepts`, as destructured by `createD3Graph` in
`src/js/main.js`. -/
structure TopicRecord where
  index : String
  topic : String
  description : String
deriving DecidableEq

/-- Row of `data/links.csv`: columns `Source Index`, `Target Index` and
`Relation Type`. -/
structure LinkRecord where
  sourceIndex : String
  targetIndex : String
  relationType : String
deriving DecidableEq

/-- Row of `data/urls.csv`: columns `Identifier` and `URL`. -/
structure UrlRecord where
  identifier : String
  url : String
deriving DecidableEq

/-- Node object produced by `createD3Graph` in `src/js/main.js` (fields
`id`, `title`, `description`, `urls`).  In the JSON-driven variants the
display-name field is called `name`; it plays the same role as `title`
here.  The mutable layout fields `x`, `y` owned by the rendering
collaborator are not part of the core data model and are omitted. -/
structure Node where
  id : String
  title : String
  description : String
  urls : List String
deriving DecidableEq

/-- An endpoint of a d3 link.  The builders store the endpoint as an id
string; after rendering, d3's forceLink replaces each endpoint with the
node object itself.  `getLinkId` in every main.js variant dispatches on
this with a typeof check. -/
inductive Endpoint where
  | ofId (id : String)
  | ofNode (node : Node)
deriving DecidableEq

/-- The dispatch `typeof sourceId === 'object' ? sourceId.id : sourceId`
performed on each endpoint inside `getLinkId`. -/
def Endpoint.resolveId : Endpoint → String
  | .ofId s => s
  | .ofNode n => n.id

/-- Link object of the graph.  `relation` is the relation-type string
(field `relation` in `src/js/main.js`, field `type` in the JSON-driven
variants) — the string fed to `getLinkId`.  `category` is the
`type: 'dependency' | 'hierarchical'` tag that `createD3Graph` in
`src/js/main.js` attaches; the JSON-driven variants do not use it. -/
structure Link where
  source : Endpoint
  target : Endpoint
  relation : String
  category : String
  urls : List String
deriving DecidableEq

/-- The `{ nodes, links }` object consumed by the rendering collaborator. -/
structure Graph where
  nodes : List Node
  links : List Link
deriving DecidableEq

/-- Translation of `getLinkId(sourceId, targetId, relation)`:
backtick-template join of the two resolved endpoint ids and the relation
type with the `|` delimiter. -/
def getLinkId (sourceId targetId : Endpoint) (relation : String) : String :=
  sourceId.resolveId ++ "|" ++ targetId.resolveId ++ "|" ++ relation

/-- The Resource Index: the ES `Map` from identifier to its url array,
modelled as an association list in insertion order. -/
abbrev UrlMap := List (String × List String)

/-- Lookup `urlMap.get(k)`: the value at the first (and, as built, only)
entry with key `k`. -/
def mapGet? : UrlMap → String → Option (List String)
  | [], _ => none
  | p :: rest, k => if p.1 = k then some p.2 else mapGet? rest k

/-- One step of the grouping loop in `createD3Graph` / `mergeUrlsIntoGraph`:
`if (!urlMap.has(k)) urlMap.set(k, []); urlMap.get(k).push(v)`.  An existing
entry keeps its position and gets `v` appended; a new key is appended at the
end holding `[v]`. -/
def mapPush : UrlMap → String → String → UrlMap
  | [], k, v => [(k, [v])]
  | p :: rest, k, v =>
      if p.1 = k then (p.1, p.2 ++ [v]) :: rest else p :: mapPush rest k v

/-- The Resource Index build routine: the `urlsData.forEach` grouping loop
shared by `createD3Graph` (`src/js/main.js`) and `mergeUrlsIntoGraph`. -/
def buildUrlMap (urlsData : List UrlRecord) : UrlMap :=
  urlsData.foldl (fun m e => mapPush m e.identifier e.url) []

/-- The lookup `urlMap.get(k) || []` used to attach urls to nodes and
links: the ordered sequence for `k`, empty if absent. -/
def urlsOrEmpty (m : UrlMap) (k : String) : List String :=
  (mapGet? m k).getD []

/-- Character-level translation of the JavaScript `id.split('.')` (split on
the literal dot, keeping empty segments; `""` yields `[""]`). -/
def splitDot : List Char → List (List Char)
  | [] => [[]]
  | c :: rest =>
      if c = '.' then [] :: splitDot rest
      else
        match splitDot rest with
        | [] => [[c]]
        | l :: ls => (c :: l) :: ls

/-- Translation of `parts.slice(0, -1).join('.')`: the parent identifier
formed by dropping the last dot-segment. -/
def joinDot (parts : List (List Char)) : List Char :=
  List.intercalate ['.'] parts

/-- Translation of `createD3Graph(topics, links, urlsData)` from
`src/js/main.js`: build the url map, one node per topic record, one
dependency link per relation record, then infer one hierarchical link
`parent → node` with relation `'parent-child'` for every node whose id has
more than one dot-segment and whose parent id is among the node ids. -/
def createD3Graph (topics : List TopicRecord) (links : List LinkRecord)
    (urlsData : List UrlRecord) : Graph :=
  let urlMap := buildUrlMap urlsData
  let nodes : List Node := topics.map (fun topic =>
    { id := topic.index, title := topic.topic, description := topic.description,
      urls := urlsOrEmpty urlMap topic.index })
  let dependencyLinks : List Link := links.map (fun link =>
    let linkId := getLinkId (.ofId link.sourceIndex) (.ofId link.targetIndex) link.relationType
    { source := .ofId link.sourceIndex, target := .ofId link.targetIndex,
      relation := link.relationType, category := "dependency",
      urls := urlsOrEmpty urlMap linkId })
  let nodeIdSet := nodes.map Node.id
  let hierarchicalLinks : List Link := nodes.filterMap (fun node =>
    let parts := splitDot node.id.data
    if parts.length > 1 then
      let parentId := (joinDot parts.dropLast).asString
      if parentId ∈ nodeIdSet then
        some { source := .ofId parentId, target := .ofId node.id,
               relation := "parent-child", category := "hierarchical",
               urls := urlsOrEmpty urlMap
                 (getLinkId (.ofId parentId) (.ofId node.id) "parent-child") }
      else none
    else none)
  { nodes := nodes, links := dependencyLinks ++ hierarchicalLinks }

/-- The node `createD3Graph` builds from one topic record. -/
def nodeFor (urlsData : List UrlRecord) (topic : TopicRecord) : Node :=
  { id := topic.index, title := topic.topic, description := topic.description,
    urls := urlsOrEmpty (buildUrlMap urlsData) topic.index }

/-- The dependency link `createD3Graph` builds from one relation record. -/
def depLinkFor (urlsData : List UrlRecord) (link : LinkRecord) : Link :=
  { source := .ofId link.sourceIndex, target := .ofId link.targetIndex,
    relation := link.relationType, category := "dependency",
    urls := urlsOrEmpty (buildUrlMap urlsData)
      (getLinkId (.ofId link.sourceIndex) (.ofId link.targetIndex) link.relationType) }

/-- The hierarchical link `createD3Graph` emits for a child of `parentId`
with id `childId`: relation `'parent-child'`, category `'hierarchical'`,
urls looked up by the composite key. -/
def hierLinkFor (urlsData : List UrlRecord) (parentId childId : String) : Link :=
  { source := .ofId parentId, target := .ofId childId,
    relation := "parent-child", category := "hierarchical",
    urls := urlsOrEmpty (buildUrlMap urlsData)
      (getLinkId (.ofId parentId) (.ofId childId) "parent-child") }

/-- The per-node step of the hierarchical-link inference loop of
`createD3Graph`: emit a link exactly when the id has more than one
dot-segment and the parent id is in `nodeIds`. -/
def hierOf (urlsData : List UrlRecord) (nodeIds : List String) (node : Node) : Option Link :=
  let parts := splitDot node.id.data
  if parts.length > 1 then
    let parentId := (joinDot parts.dropLast).asString
    if parentId ∈ nodeIds then some (hierLinkFor urlsData parentId node.id)
    else none
  else none

/-- The membership test `nodeIdSet.has(endpoint)` performed by the dead
`validLinks` filter of `mergeUrlsIntoGraph`: a JS `Set` of id strings
contains an endpoint only when the endpoint is a string equal to one of
them (an object endpoint never compares equal to a string). -/
def endpointInSet (e : Endpoint) (ids : List String) : Bool :=
  match e with
  | .ofId s => decide (s ∈ ids)
  | .ofNode _ => false

/-- Translation of `mergeUrlsIntoGraph(graphData, urlsData)` from the
unnamed main.js variant: build the url map, compute `validLinks` (source
and target both present among the node ids) — which the source then never
uses — and return the input graph with each node's `urls` set to the
lookup by its id and each link's `urls` set to the lookup by its composite
key.  The returned link list is `graphData.links`, not `validLinks`,
exactly as in the source. -/
def mergeUrlsIntoGraph (graphData : Graph) (urlsData : List UrlRecord) : Graph :=
  let urlMap := buildUrlMap urlsData
  let nodeIdSet := graphData.nodes.map Node.id
  let _validLinks := graphData.links.filter (fun link =>
    endpointInSet link.source nodeIdSet && endpointInSet link.target nodeIdSet)
  let nodes := graphData.nodes.map (fun node =>
    { node with urls := urlsOrEmpty urlMap node.id })
  let links := graphData.links.map (fun link =>
    { link with urls := urlsOrEmpty urlMap (getLinkId link.source link.target link.relation) })
  { nodes := nodes, links := links }

/-- Character-level translation of `.replace(/"/g, '""')`: every double
quote is doubled. -/
def escapeQuotes : List Char → List Char
  | [] => []
  | c :: rest =>
      if c = '"' then '"' :: '"' :: escapeQuotes rest else c :: escapeQuotes rest

/-- Translation of `escapeCsv = (str) => quoted(str.replace(/"/g, '""'))`
from `saveUrlsToCsv` in `src/src/main.js`: wrap in double quotes, doubling
embedded double quotes. -/
def escapeCsv (s : String) : String :=
  "\"" ++ (escapeQuotes s.data).asString ++ "\""

/-- Translation of `saveUrlsToCsv(graph)` from `src/src/main.js` (the
variant with `escapeCsv`): start from the `Identifier,URL` header, then for
each node with a non-empty url list append one row `id,escapedUrl` per url,
then the same for each link keyed by its recomputed composite key. -/
def saveUrlsToCsv (graph : Graph) : String :=
  let base := "Identifier,URL\n"
  let withNodes := graph.nodes.foldl (fun acc node =>
    if node.urls.length > 0 then
      node.urls.foldl (fun acc2 url => acc2 ++ node.id ++ "," ++ escapeCsv url ++ "\n") acc
    else acc) base
  graph.links.foldl (fun acc link =>
    if link.urls.length > 0 then
      let linkId := getLinkId link.source link.target link.relation
      link.urls.foldl (fun acc2 url => acc2 ++ linkId ++ "," ++ escapeCsv url ++ "\n") acc
    else acc) withNodes

/-- The ordered (identifier, url) pairs that `saveUrlsToCsv` emits: node
rows in node order, then link rows in link order, one pair per url. -/
def exportPairs (graph : Graph) : List (String × String) :=
  graph.nodes.flatMap (fun node => node.urls.map (fun url => (node.id, url)))
    ++ graph.links.flatMap (fun link =>
        link.urls.map (fun url => (getLinkId link.source link.target link.relation, url)))

/-- Split a character list at newlines, keeping empty lines. -/
def splitLines : List Char → List (List Char)
  | [] => [[]]
  | c :: rest =>
      if c = '\n' then [] :: splitLines rest
      else
        match splitLines rest with
        | [] => [[c]]
        | l :: ls => (c :: l) :: ls

/-- Read the body of a double-quoted CSV field (opening quote already
consumed): a doubled quote stands for a literal quote, a single quote
closes the field. -/
def unquote : List Char → List Char
  | [] => []
  | c :: rest =>
      if c = '"' then
        match rest with
        | [] => []
        | c2 :: rest2 => if c2 = '"' then '"' :: unquote rest2 else []
      else c :: unquote rest

/-- Read a CSV field that may or may not be double-quoted. -/
def unquoteField (cs : List Char) : String :=
  match cs with
  | '"' :: rest => (unquote rest).asString
  | _ => cs.asString

/-- Parse one data row of the two-column `Identifier,URL` shape: the
identifier is everything before the first comma, the url is the remainder
with standard CSV unquoting applied. -/
def parseCsvRow (cs : List Char) : String × String :=
  let ident := (cs.takeWhile (fun c => decide (c ≠ ','))).asString
  let rest := (cs.dropWhile (fun c => decide (c ≠ ','))).drop 1
  (ident, unquoteField rest)

/-- Modelled from the spec: the Tabular Record Reader collaborator
(`d3.csv`), which is library code absent from the repository, restricted to
the `Identifier,URL` tabular shape the spec gives for the Urls input and
output files (header row, then one row per url, fields escaped per the
standard CSV quoting rule).  Drops the header line and empty lines and
parses each remaining line into an `Identifier`/`URL` record. -/
def parseUrlsCsv (content : String) : List UrlRecord :=
  match splitLines content.data with
  | [] => []
  | _hdr :: rows =>
      (rows.filter (fun l => decide (l ≠ []))).map (fun line =>
        let r := parseCsvRow line
        { identifier := r.1, url := r.2 })

/-- Scheme characters of an absolute URL: letters, digits, `+`, `-`, `.`. -/
def isSchemeChar (c : Char) : Bool :=
  c.isAlpha || c.isDigit || c = '+' || c = '-' || c = '.'

/-- Modelled from the spec: the WHATWG `URL` constructor used by the
add-URL handler (`new URL(value)` — browser builtin, absent from the
repository), per the spec's words "must parse as a syntactically valid
absolute URL (scheme + authority at minimum)": a non-empty scheme starting
with a letter, the `://` separator, and a non-empty authority. -/
def isValidAbsoluteUrl (s : String) : Bool :=
  let cs := s.data
  let scheme := cs.takeWhile (fun c => decide (c ≠ ':'))
  let rest := cs.dropWhile (fun c => decide (c ≠ ':'))
  match scheme, rest with
  | c :: _, ':' :: '/' :: '/' :: a :: _ =>
      c.isAlpha && scheme.all isSchemeChar && decide (a ≠ '/')
  | _, _ => false

/-- Outcome of one click of the Add button in `showUrlManager`. -/
inductive AddUrlOutcome where
  | ignored
  | appended
  | rejected
deriving DecidableEq

/-- Translation of the Add-button handler in `showUrlManager`
(`src/src/main.js`): an empty input fails the `if (addUrlInput.value)`
truthiness check and nothing happens; otherwise `new URL(value)` is tried —
on success the value is pushed onto `element.urls`, on exception the
handler alerts "Please enter a valid URL." and leaves the urls unchanged. -/
def addUrlHandler (urls : List String) (value : String) : List String × AddUrlOutcome :=
  if value = "" then (urls, AddUrlOutcome.ignored)
  else if isValidAbsoluteUrl value then (urls ++ [value], AddUrlOutcome.appended)
  else (urls, AddUrlOutcome.rejected)

/-- The per-node step of the node loop of `saveUrlsToCsv`: append one row
per url of the node, keyed by the node id. -/
def nodeRowsStep (acc : String) (node : Node) : String :=
  if node.urls.length > 0 then
    node.urls.foldl (fun acc2 url => acc2 ++ node.id ++ "," ++ escapeCsv url ++ "\n") acc
  else acc

/-- The per-link step of the link loop of `saveUrlsToCsv`: append one row
per url of the link, keyed by the recomputed composite key. -/
def linkRowsStep (acc : String) (link : Link) : String :=
  if link.urls.length > 0 then
    let linkId := getLinkId link.source link.target link.relation
    link.urls.foldl (fun acc2 url => acc2 ++ linkId ++ "," ++ escapeCsv url ++ "\n") acc
  else acc

/-- One exported CSV row for an (identifier, url) pair: the identifier
verbatim, a comma, the CSV-escaped url, a newline — exactly the row
`csvContent += id + ',' + escapeCsv(url) + newline` appends. -/
def renderRow (p : String × String) : String :=
  p.1 ++ "," ++ escapeCsv p.2 ++ "\n"

/-- Concatenation of exported rows. -/
def concatRows : List (String × String) → String
  | [] => ""
  | p :: rest => renderRow p ++ concatRows rest

/-- The mutation `element.urls.push(value)` on a node object. -/
def pushUrlToNode (n : Node) (u : String) : Node :=
  { n with urls := n.urls ++ [u] }

/-- The mutation `element.urls.push(value)` on a link object. -/
def pushUrlToLink (l : Link) (u : String) : Link :=
  { l with urls := l.urls ++ [u] }

/-- Unfolding `createD3Graph` into its three building blocks. -/
theorem createD3Graph_eq (topics : List TopicRecord) (links : List LinkRecord)
    (urlsData : List UrlRecord) :
    createD3Graph topics links urlsData =
      { nodes := topics.map (nodeFor urlsData),
        links := links.map (depLinkFor urlsData)
          ++ (topics.map (nodeFor urlsData)).filterMap
              (hierOf urlsData ((topics.map (nodeFor urlsData)).map Node.id)) } := rfl

/-- Pushing a url onto the index changes only the sequence at its key,
where it appends one element. -/
theorem urlsOrEmpty_mapPush (m : UrlMap) (a v k : String) :
    urlsOrEmpty (mapPush m a v) k = urlsOrEmpty m k ++ (if k = a then [v] else []) := by
  induction m with
  | nil =>
      by_cases h : a = k
      · subst h
        simp [mapPush, urlsOrEmpty, mapGet?]
      · have h' : ¬ k = a := fun e => h e.symm
        simp [mapPush, urlsOrEmpty, mapGet?, h, h']
  | cons p rest ih =>
      simp only [mapPush]
      by_cases hpa : p.1 = a
      · simp only [if_pos hpa, urlsOrEmpty, mapGet?]
        by_cases hk : p.1 = k
        · have hka : k = a := hk ▸ hpa
          simp [hk, hka]
        · have hka : ¬ k = a := fun e => hk (hpa.trans e.symm)
          simp [hk, hka]
      · simp only [if_neg hpa, urlsOrEmpty, mapGet?]
        by_cases hk : p.1 = k
        · have hka : ¬ k = a := fun e => hpa (hk.trans e)
          simp [hk, hka]
        · simpa [hk, urlsOrEmpty, mapGet?] using ih

/-- The grouping fold, started from any accumulator, appends to each key
the urls of the records carrying that key, in input order. -/
theorem urlsOrEmpty_foldl (data : List UrlRecord) (m : UrlMap) (k : String) :
    urlsOrEmpty (data.foldl (fun m e => mapPush m e.identifier e.url) m) k
      = urlsOrEmpty m k
        ++ (data.filter (fun e => decide (e.identifier = k))).map UrlRecord.url := by
  induction data generalizing m with
  | nil => simp
  | cons e rest ih =>
      by_cases h : e.identifier = k
      · simp [List.filter_cons, h, ih, urlsOrEmpty_mapPush, eq_comm, List.append_assoc]
      · have : ¬ k = e.identifier := fun hk => h hk.symm
        simp [List.filter_cons, h, ih, urlsOrEmpty_mapPush, this]

/-- The Resource Index build routine groups records by identifier,
preserving input order within each group. -/
theorem urlsOrEmpty_buildUrlMap (data : List UrlRecord) (k : String) :
    urlsOrEmpty (buildUrlMap data) k
      = (data.filter (fun e => decide (e.identifier = k))).map UrlRecord.url := by
  simpa [urlsOrEmpty, mapGet?] using urlsOrEmpty_foldl data [] k

/-- C9: `urlsFor` on an identifier with no entries in the Resource Index
returns the empty sequence.  The lookup `urlMap.get(id) || []` is a total
function of the index and the identifier — it cannot raise, and since it
does not produce a new index, any number of repeated calls return the same
empty sequence and leave the index untouched. -/
theorem urlsFor_absent_empty (data : List UrlRecord) (k : String)
    (h : ∀ r ∈ data, r.identifier ≠ k) :
    urlsOrEmpty (buildUrlMap data) k = [] := by
  rw [urlsOrEmpty_buildUrlMap]
  have : data.filter (fun e => decide (e.identifier = k)) = [] :=
    List.filter_eq_nil_iff.mpr (by intro a ha; simpa using h a ha)
  simp [this]

/-- Witness for C9 at a concrete index and absent identifier. -/
theorem urlsFor_absent_empty_witness :
    (∀ r ∈ [UrlRecord.mk "1" "https://a"], r.identifier ≠ "2")
      ∧ urlsOrEmpty (buildUrlMap [UrlRecord.mk "1" "https://a"]) "2" = [] :=
  ⟨by decide, urlsFor_absent_empty [UrlRecord.mk "1" "https://a"] "2" (by decide)⟩

/-- Splitting a list at a separator character occurring in neither prefix
recovers the prefixes and the tails. -/
theorem append_sep_inj (sep : Char) (xs ys u v : List Char)
    (hx : sep ∉ xs) (hy : sep ∉ ys)
    (h : xs ++ sep :: u = ys ++ sep :: v) : xs = ys ∧ u = v := by
  induction xs generalizing ys with
  | nil =>
      cases ys with
      | nil => simpa using h
      | cons b bs =>
          exfalso
          simp only [List.nil_append, List.cons_append, List.cons.injEq] at h
          exact hy (h.1 ▸ List.mem_cons_self b bs)
  | cons a as ih =>
      cases ys with
      | nil =>
          exfalso
          simp only [List.nil_append, List.cons_append, List.cons.injEq] at h
          exact hx (h.1.symm ▸ List.mem_cons_self a as)
      | cons b bs =>
          simp only [List.cons_append, List.cons.injEq] at h
          obtain ⟨rfl, h2⟩ := h
          have hx' : sep ∉ as := fun hm => hx (List.mem_cons_of_mem _ hm)
          have hy' : sep ∉ bs := fun hm => hy (List.mem_cons_of_mem _ hm)
          obtain ⟨rfl, rfl⟩ := ih bs hx' hy' h2
          exact ⟨rfl, rfl⟩

/-- C4: the composite edge identifier is the deterministic join of source
id, target id and relation type with the `|` delimiter.  Determinism is
immediate because `getLinkId` is a pure function of the ordered triple;
this theorem states the second half of the claim: when no field contains
the delimiter, two calls agree exactly when the two ordered triples agree,
so triples differing in any field give distinct keys. -/
theorem getLinkId_eq_iff (s t r s' t' r' : String)
    (hs : '|' ∉ s.data) (ht : '|' ∉ t.data) (_hr : '|' ∉ r.data)
    (hs' : '|' ∉ s'.data) (ht' : '|' ∉ t'.data) (_hr' : '|' ∉ r'.data) :
    getLinkId (.ofId s) (.ofId t) r = getLinkId (.ofId s') (.ofId t') r'
      ↔ s = s' ∧ t = t' ∧ r = r' := by
  constructor
  · intro h
    have hd : s.data ++ '|' :: (t.data ++ '|' :: r.data)
        = s'.data ++ '|' :: (t'.data ++ '|' :: r'.data) := by
      have h0 := congrArg String.data h
      simpa [getLinkId, Endpoint.resolveId, String.data_append,
        List.append_assoc] using h0
    obtain ⟨h1, h2⟩ := append_sep_inj '|' _ _ _ _ hs hs' hd
    obtain ⟨h3, h4⟩ := append_sep_inj '|' _ _ _ _ ht ht' h2
    exact ⟨String.ext h1, String.ext h3, String.ext h4⟩
  · rintro ⟨rfl, rfl, rfl⟩
    rfl

/-- Witness for C4: the spec's example pair of composite keys, identical
triple giving an identical key and a triple differing in the relation type
giving a distinct key. -/
theorem getLinkId_eq_iff_witness :
    getLinkId (.ofId "1") (.ofId "1.1") "sub topic"
        = getLinkId (.ofId "1") (.ofId "1.1") "sub topic"
      ∧ getLinkId (.ofId "1") (.ofId "1.1") "sub topic"
        ≠ getLinkId (.ofId "1") (.ofId "1.1") "depends on" := by
  refine ⟨rfl, fun h => ?_⟩
  have h2 := (getLinkId_eq_iff "1" "1.1" "sub topic" "1" "1.1" "depends on"
    (by decide) (by decide) (by decide) (by decide) (by decide) (by decide)).mp h
  exact absurd h2.2.2 (by decide)

/-- C8 counterexample: two topic records sharing the identifier `"1"`
produce two nodes with the same id — the node ids of the built graph are
not pairwise distinct, and the build is not rejected. -/
theorem duplicate_topic_ids_cex :
    ¬ (((createD3Graph [⟨"1", "A", ""⟩, ⟨"1", "B", ""⟩] [] []).nodes.map Node.id).Nodup) := by
  decide

/-- C8 amended: `createD3Graph` builds one node per topic record in input
order, so the node ids are exactly the input identifiers — pairwise
distinct precisely when the input identifiers are; duplicates are neither
collapsed nor rejected. -/
theorem node_ids_eq_topic_ids (topics : List TopicRecord) (links : List LinkRecord)
    (urlsData : List UrlRecord) :
    (createD3Graph topics links urlsData).nodes.map Node.id
      = topics.map TopicRecord.index := by
  simp [createD3Graph_eq, List.map_map, Function.comp, nodeFor]

/-- C5 counterexample: the empty string does not parse as a valid absolute
URL, yet the Add handler's `if (addUrlInput.value)` truthiness guard makes
it fall through silently — the index is unchanged but no user-facing
validation failure is raised. -/
theorem addUrl_empty_cex :
    isValidAbsoluteUrl "" = false
      ∧ addUrlHandler ["https://a"] "" = (["https://a"], AddUrlOutcome.ignored)
      ∧ AddUrlOutcome.ignored ≠ AddUrlOutcome.rejected := by
  decide

/-- C5 amended: every non-empty candidate string that does not parse as a
syntactically valid absolute URL is rejected with the user-facing
validation failure (the "Please enter a valid URL." alert) and the url
sequence of the selected element — hence `urlsFor` at its identifier — is
left unchanged; an empty candidate is ignored silently, also leaving the
sequence unchanged. -/
theorem addUrl_invalid_rejected (urls : List String) (value : String)
    (hne : value ≠ "") (hinv : isValidAbsoluteUrl value = false) :
    addUrlHandler urls value = (urls, AddUrlOutcome.rejected) := by
  simp [addUrlHandler, hne, hinv]

/-- Witness for the amended C5: the spec's `"not-a-url"` input is rejected
and the sequence is unchanged. -/
theorem addUrl_invalid_rejected_witness :
    "not-a-url" ≠ ""
      ∧ isValidAbsoluteUrl "not-a-url" = false
      ∧ addUrlHandler ["https://a"] "not-a-url" = (["https://a"], AddUrlOutcome.rejected) :=
  ⟨by decide, by decide,
    addUrl_invalid_rejected ["https://a"] "not-a-url" (by decide) (by decide)⟩

/-- C2: the code computes the referential filter but does not apply it.
`mergeUrlsIntoGraph` builds `validLinks` (dropping edges whose endpoints
are not both node ids, exactly as its comments describe) yet returns the
original link list, so an edge with source `"9.9"` survives although
`"9.9"` is not a node id; `createD3Graph` never filters its dependency
links at all, so the same relation record also yields a retained edge
there. -/
theorem invalid_edge_retained :
    (mergeUrlsIntoGraph
        { nodes := [⟨"1", "Root", "", []⟩],
          links := [⟨.ofId "9.9", .ofId "1", "depends on", "dependency", []⟩] } []).links
      = [⟨.ofId "9.9", .ofId "1", "depends on", "dependency", []⟩]
    ∧ "9.9" ∉ (mergeUrlsIntoGraph
        { nodes := [⟨"1", "Root", "", []⟩],
          links := [⟨.ofId "9.9", .ofId "1", "depends on", "dependency", []⟩] } []).nodes.map Node.id
    ∧ (createD3Graph [⟨"1", "Root", ""⟩] [⟨"9.9", "1", "depends on"⟩] []).links
      = [⟨.ofId "9.9", .ofId "1", "depends on", "dependency", []⟩]
    ∧ "9.9" ∉ (createD3Graph [⟨"1", "Root", ""⟩] [⟨"9.9", "1", "depends on"⟩] []).nodes.map Node.id := by
  decide

/-- Unfolding `saveUrlsToCsv` into the two folds over its row steps. -/
theorem saveUrlsToCsv_eq_foldl (g : Graph) :
    saveUrlsToCsv g
      = g.links.foldl linkRowsStep (g.nodes.foldl nodeRowsStep "Identifier,URL\n") := rfl

/-- A link the hierarchical inference emits records the emitting node's id
as target, the parent id as source, relation `'parent-child'` and category
`'hierarchical'`; it is emitted exactly under the depth and parent-present
conditions. -/
theorem hierOf_some (urlsData : List UrlRecord) (ids : List String) (node : Node) (l : Link)
    (h : hierOf urlsData ids node = some l) :
    l = hierLinkFor urlsData ((joinDot (splitDot node.id.data).dropLast).asString) node.id
      ∧ (splitDot node.id.data).length > 1
      ∧ ((joinDot (splitDot node.id.data).dropLast).asString) ∈ ids := by
  simp only [hierOf] at h
  split_ifs at h with h1 h2
  · cases h
    exact ⟨rfl, h1, h2⟩

/-- The hierarchical inference step depends only on the node's id. -/
theorem hierOf_eq_of_id (urlsData : List UrlRecord) (ids : List String) (m nd : Node)
    (h : m.id = nd.id) :
    hierOf urlsData ids m = hierOf urlsData ids nd := by
  simp only [hierOf, h]

/-- No hierarchical link produced from nodes whose ids all differ from
`tid` targets `tid`. -/
theorem filter_hier_not_target (urlsData : List UrlRecord) (ids : List String)
    (ns : List Node) (tid : String) (h : ∀ m ∈ ns, m.id ≠ tid) :
    (ns.filterMap (hierOf urlsData ids)).filter
        (fun l => decide (l.category = "hierarchical" ∧ l.target = Endpoint.ofId tid)) = [] := by
  apply List.filter_eq_nil_iff.mpr
  intro l hl
  obtain ⟨m, hm, hsome⟩ := List.mem_filterMap.mp hl
  obtain ⟨rfl, -, -⟩ := hierOf_some urlsData ids m l hsome
  simp only [hierLinkFor, decide_eq_true_eq, not_and]
  intro _
  simp only [Endpoint.ofId.injEq]
  exact h m hm

/-- Among nodes with pairwise distinct ids containing `nd`, for which the
inference fires, exactly the one link of `nd` survives the
category-and-target filter. -/
theorem filter_hier_present (urlsData : List UrlRecord) (ids : List String)
    (ns : List Node) (nd : Node) (l0 : Link)
    (hnodup : (ns.map Node.id).Nodup) (hmem : nd ∈ ns)
    (hsome : hierOf urlsData ids nd = some l0) :
    (ns.filterMap (hierOf urlsData ids)).filter
        (fun l => decide (l.category = "hierarchical" ∧ l.target = Endpoint.ofId nd.id))
      = [l0] := by
  induction ns with
  | nil => cases hmem
  | cons m rest ih =>
      have hnodup' : (rest.map Node.id).Nodup := by
        simpa using (List.nodup_cons.mp (by simpa using hnodup)).2
      rcases List.mem_cons.mp hmem with rfl | hmem'
      · have hrest : ∀ m' ∈ rest, m'.id ≠ nd.id := by
          intro m' hm' he
          have hni : nd.id ∉ rest.map Node.id :=
            (List.nodup_cons.mp (by simpa using hnodup)).1
          exact hni (he ▸ List.mem_map_of_mem Node.id hm')
        have hl0 : l0 = hierLinkFor urlsData
            ((joinDot (splitDot nd.id.data).dropLast).asString) nd.id :=
          (hierOf_some urlsData ids nd l0 hsome).1
        have hp : (fun l => decide (l.category = "hierarchical"
            ∧ l.target = Endpoint.ofId nd.id)) l0 = true := by
          subst hl0
          simp [hierLinkFor]
        simp only [List.filterMap_cons, hsome, List.filter_cons, hp, if_pos]
        rw [filter_hier_not_target urlsData ids rest nd.id hrest]
      · have hmid : m.id ≠ nd.id := by
          intro he
          have hni : m.id ∉ rest.map Node.id :=
            (List.nodup_cons.mp (by simpa using hnodup)).1
          exact hni (he ▸ List.mem_map_of_mem Node.id hmem')
        cases hmo : hierOf urlsData ids m with
        | none =>
            simp only [List.filterMap_cons, hmo]
            exact ih hnodup' hmem'
        | some lm =>
            have hplm : (fun l => decide (l.category = "hierarchical"
                ∧ l.target = Endpoint.ofId nd.id)) lm = false := by
              obtain ⟨rfl, -, -⟩ := hierOf_some urlsData ids m lm hmo
              simp only [hierLinkFor, decide_eq_true_eq, not_and, decide_eq_false_iff_not]
              intro _
              simp only [Endpoint.ofId.injEq]
              exact hmid
            simp only [List.filterMap_cons, hmo, List.filter_cons, hplm]
            simp only [Bool.false_eq_true, if_false]
            exact ih hnodup' hmem'

/-- Dependency links never pass the hierarchical-category filter. -/
theorem filter_dep_nil (urlsData : List UrlRecord) (links : List LinkRecord) (tid : String) :
    (links.map (depLinkFor urlsData)).filter
        (fun l => decide (l.category = "hierarchical" ∧ l.target = Endpoint.ofId tid)) = [] := by
  apply List.filter_eq_nil_iff.mpr
  intro l hl
  obtain ⟨link, -, rfl⟩ := List.mem_map.mp hl
  simp [depLinkFor]

/-- C1 amended: in the graph built by `createD3Graph` (with pairwise
distinct node ids), every node whose id has more than one dot-segment and
whose parent id (last dot-segment dropped) is among the node ids receives
exactly one hierarchical edge, from the parent to the node — with
relationType `'parent-child'`, not `"sub topic"` as the claim states — and
a node whose computed parent is absent (or whose depth is 1) receives no
hierarchical edge. -/
theorem hierarchical_edges_characterized
    (topics : List TopicRecord) (links : List LinkRecord) (urlsData : List UrlRecord)
    (hnd : ((createD3Graph topics links urlsData).nodes.map Node.id).Nodup)
    (nd : Node) (hmem : nd ∈ (createD3Graph topics links urlsData).nodes) :
    ((splitDot nd.id.data).length > 1
        → (joinDot (splitDot nd.id.data).dropLast).asString
            ∈ (createD3Graph topics links urlsData).nodes.map Node.id
        → (createD3Graph topics links urlsData).links.filter
            (fun l => decide (l.category = "hierarchical" ∧ l.target = Endpoint.ofId nd.id))
          = [hierLinkFor urlsData ((joinDot (splitDot nd.id.data).dropLast).asString) nd.id])
    ∧ (¬ ((splitDot nd.id.data).length > 1
          ∧ (joinDot (splitDot nd.id.data).dropLast).asString
              ∈ (createD3Graph topics links urlsData).nodes.map Node.id)
        → (createD3Graph topics links urlsData).links.filter
            (fun l => decide (l.category = "hierarchical" ∧ l.target = Endpoint.ofId nd.id))
          = []) := by
  rw [createD3Graph_eq] at hnd hmem ⊢
  dsimp only at hnd hmem ⊢
  constructor
  · intro h1 h2
    have hsome : hierOf urlsData ((topics.map (nodeFor urlsData)).map Node.id) nd
        = some (hierLinkFor urlsData ((joinDot (splitDot nd.id.data).dropLast).asString) nd.id) := by
      simp only [hierOf, if_pos h1]
      rw [if_pos (by simpa using h2)]
    rw [List.filter_append, filter_dep_nil,
      filter_hier_present urlsData _ _ nd _ hnd hmem hsome]
    rfl
  · intro hnot
    rw [List.filter_append, filter_dep_nil]
    rw [List.nil_append]
    apply List.filter_eq_nil_iff.mpr
    intro l hl
    obtain ⟨m, hm, hsome⟩ := List.mem_filterMap.mp hl
    by_cases hid : m.id = nd.id
    · exfalso
      rw [hierOf_eq_of_id urlsData _ m nd hid] at hsome
      obtain ⟨-, hdep, hpar⟩ := hierOf_some urlsData _ nd l hsome
      exact hnot ⟨hdep, by simpa using hpar⟩
    · obtain ⟨rfl, -, -⟩ := hierOf_some urlsData _ m l hsome
      simp only [hierLinkFor, decide_eq_true_eq, not_and]
      intro _
      simp only [Endpoint.ofId.injEq]
      exact hid

/-- Witness for the amended C1, at the spec's example: nodes `1`, `1.1`,
`1.1.2` present and `1.2` absent.  The node `1.1.2` gets exactly the one
hierarchical edge from `1.1`, and a query for hierarchical edges targeting
the parentless deep node of a second build yields none. -/
theorem hierarchical_edges_characterized_witness :
    (createD3Graph [⟨"1", "A", ""⟩, ⟨"1.1", "B", ""⟩, ⟨"1.1.2", "C", ""⟩] [] []).links.filter
        (fun l => decide (l.category = "hierarchical" ∧ l.target = Endpoint.ofId "1.1.2"))
      = [hierLinkFor [] "1.1" "1.1.2"] := by
  have h := (hierarchical_edges_characterized
      [⟨"1", "A", ""⟩, ⟨"1.1", "B", ""⟩, ⟨"1.1.2", "C", ""⟩] [] []
      (by decide) ⟨"1.1.2", "C", "", []⟩ (by decide)).1 (by decide) (by decide)
  have hj : (joinDot (splitDot (String.data "1.1.2")).dropLast).asString = "1.1" := by decide
  rw [hj] at h
  exact h

/-- C1 counterexample: with nodes `1` and `1.1` the builder emits the
hierarchical edge `1 → 1.1`, but its relationType is `'parent-child'`; no
edge of the built graph carries relationType `"sub topic"`. -/
theorem hierarchical_edge_relation_cex :
    (createD3Graph [⟨"1", "Root", ""⟩, ⟨"1.1", "Child", ""⟩] [] []).links
      = [{ source := .ofId "1", target := .ofId "1.1", relation := "parent-child",
           category := "hierarchical", urls := [] }]
    ∧ (createD3Graph [⟨"1", "Root", ""⟩, ⟨"1.1", "Child", ""⟩] [] []).links.filter
        (fun l => decide (l.relation = "sub topic")) = [] := by
  decide

/-- C7: in both builders, whenever a Resource Index is built from the
supplied resource records, every node's url sequence is the index lookup
by the node's id and every link's url sequence is the index lookup by the
link's composite key — the empty sequence when the key is absent (that is
what `urlMap.get(k) || []` returns, see `urlsOrEmpty`). -/
theorem urls_attached_from_index :
    (∀ (topics : List TopicRecord) (links : List LinkRecord) (urlsData : List UrlRecord),
      (∀ nd ∈ (createD3Graph topics links urlsData).nodes,
        nd.urls = urlsOrEmpty (buildUrlMap urlsData) nd.id)
      ∧ (∀ l ∈ (createD3Graph topics links urlsData).links,
        l.urls = urlsOrEmpty (buildUrlMap urlsData) (getLinkId l.source l.target l.relation)))
    ∧ (∀ (graphData : Graph) (urlsData : List UrlRecord),
      (∀ nd ∈ (mergeUrlsIntoGraph graphData urlsData).nodes,
        nd.urls = urlsOrEmpty (buildUrlMap urlsData) nd.id)
      ∧ (∀ l ∈ (mergeUrlsIntoGraph graphData urlsData).links,
        l.urls = urlsOrEmpty (buildUrlMap urlsData) (getLinkId l.source l.target l.relation))) := by
  constructor
  · intro topics links urlsData
    constructor
    · intro nd hmem
      rw [createD3Graph_eq] at hmem
      obtain ⟨t, -, rfl⟩ := List.mem_map.mp hmem
      rfl
    · intro l hmem
      rw [createD3Graph_eq] at hmem
      rcases List.mem_append.mp hmem with hdep | hhier
      · obtain ⟨link, -, rfl⟩ := List.mem_map.mp hdep
        rfl
      · obtain ⟨m, -, hsome⟩ := List.mem_filterMap.mp hhier
        obtain ⟨rfl, -, -⟩ := hierOf_some urlsData _ m l hsome
        rfl
  · intro graphData urlsData
    constructor
    · intro nd hmem
      obtain ⟨m, -, rfl⟩ := List.mem_map.mp hmem
      rfl
    · intro l hmem
      obtain ⟨lk, -, rfl⟩ := List.mem_map.mp hmem
      rfl

/-- Witness for C7 at a concrete build: the node `1` of a two-node graph
with one resource row carries exactly the index lookup at `"1"`. -/
theorem urls_attached_from_index_witness :
    ({ id := "1", title := "A", description := "", urls := ["https://a"] } : Node)
        ∈ (createD3Graph [⟨"1", "A", ""⟩] [] [⟨"1", "https://a"⟩]).nodes
      ∧ (({ id := "1", title := "A", description := "", urls := ["https://a"] } : Node).urls
        = urlsOrEmpty (buildUrlMap [⟨"1", "https://a"⟩])
            ({ id := "1", title := "A", description := "", urls := ["https://a"] } : Node).id) :=
  ⟨by decide,
    (urls_attached_from_index.1 [⟨"1", "A", ""⟩] [] [⟨"1", "https://a"⟩]).1
      { id := "1", title := "A", description := "", urls := ["https://a"] } (by decide)⟩

/-- A step of the link-row loop of the exporter depends on a link only
through its resolved endpoint ids, its relation type and its urls. -/
theorem linkRowsStep_congr (acc : String) (l l' : Link)
    (h1 : l.source.resolveId = l'.source.resolveId)
    (h2 : l.target.resolveId = l'.target.resolveId)
    (h3 : l.relation = l'.relation) (h4 : l.urls = l'.urls) :
    linkRowsStep acc l = linkRowsStep acc l' := by
  simp only [linkRowsStep, getLinkId, h1, h2, h3, h4]

/-- C10: `getLinkId` is invariant under endpoint representation — the key
computed from id strings equals the key computed from node objects
carrying those ids — and consequently the exported CSV of a graph is
unchanged when the rendering layer has replaced each link's endpoints by
node objects with the same ids (keys recomputed at export time equal the
build-time keys). -/
theorem getLinkId_endpoint_invariant :
    (∀ (n m : Node) (r : String),
      getLinkId (.ofNode n) (.ofNode m) r = getLinkId (.ofId n.id) (.ofId m.id) r)
    ∧ (∀ (nodes : List Node) (links links' : List Link),
      List.Forall₂ (fun l l' =>
        l.source.resolveId = l'.source.resolveId
        ∧ l.target.resolveId = l'.target.resolveId
        ∧ l.relation = l'.relation ∧ l.urls = l'.urls) links links'
      → saveUrlsToCsv ⟨nodes, links⟩ = saveUrlsToCsv ⟨nodes, links'⟩) := by
  constructor
  · intro n m r
    rfl
  · intro nodes links links' h
    rw [saveUrlsToCsv_eq_foldl, saveUrlsToCsv_eq_foldl]
    show links.foldl linkRowsStep (nodes.foldl nodeRowsStep "Identifier,URL\n")
      = links'.foldl linkRowsStep (nodes.foldl nodeRowsStep "Identifier,URL\n")
    generalize nodes.foldl nodeRowsStep "Identifier,URL\n" = acc
    induction h generalizing acc with
    | nil => rfl
    | cons hab htail ih =>
        simp only [List.foldl_cons]
        rw [linkRowsStep_congr acc _ _ hab.1 hab.2.1 hab.2.2.1 hab.2.2.2]
        exact ih _

/-- Witness for C10: one link written with string endpoints and the same
link written with node-object endpoints export identically. -/
theorem getLinkId_endpoint_invariant_witness :
    saveUrlsToCsv
        { nodes := [],
          links := [{ source := .ofId "1", target := .ofId "1.1",
                      relation := "sub topic", category := "", urls := ["https://u"] }] }
      = saveUrlsToCsv
        { nodes := [],
          links := [{ source := .ofNode { id := "1", title := "A", description := "", urls := [] },
                      target := .ofNode { id := "1.1", title := "B", description := "", urls := [] },
                      relation := "sub topic", category := "", urls := ["https://u"] }] } :=
  getLinkId_endpoint_invariant.2 [] _ _
    (List.Forall₂.cons (by decide) List.Forall₂.nil)

/-- Rows distribute over appended pair lists. -/
theorem concatRows_append (a b : List (String × String)) :
    concatRows (a ++ b) = concatRows a ++ concatRows b := by
  induction a with
  | nil => simp [concatRows]
  | cons p rest ih => simp [concatRows, ih, String.append_assoc]

/-- The inner url loop of the exporter appends one row per url. -/
theorem foldl_urlRows (k : String) (us : List String) (acc : String) :
    us.foldl (fun acc2 url => acc2 ++ k ++ "," ++ escapeCsv url ++ "\n") acc
      = acc ++ concatRows (us.map (fun u => (k, u))) := by
  induction us generalizing acc with
  | nil => simp [concatRows]
  | cons u rest ih =>
      rw [List.foldl_cons, ih]
      simp [concatRows, renderRow, String.append_assoc]

/-- A node step appends exactly the node's rows. -/
theorem nodeRowsStep_eq (acc : String) (node : Node) :
    nodeRowsStep acc node = acc ++ concatRows (node.urls.map (fun u => (node.id, u))) := by
  unfold nodeRowsStep
  cases h : node.urls with
  | nil => simp [h, concatRows]
  | cons u us =>
      rw [if_pos (by simp), foldl_urlRows]

/-- A link step appends exactly the link's rows, keyed by the recomputed
composite key. -/
theorem linkRowsStep_eq (acc : String) (link : Link) :
    linkRowsStep acc link = acc
      ++ concatRows (link.urls.map (fun u =>
          (getLinkId link.source link.target link.relation, u))) := by
  unfold linkRowsStep
  cases h : link.urls with
  | nil => simp [h, concatRows]
  | cons u us =>
      rw [if_pos (by simp), foldl_urlRows]

/-- The node loop appends the rows of all nodes. -/
theorem foldl_nodeRows (ns : List Node) (acc : String) :
    ns.foldl nodeRowsStep acc
      = acc ++ concatRows (ns.flatMap (fun node => node.urls.map (fun u => (node.id, u)))) := by
  induction ns generalizing acc with
  | nil => simp [concatRows]
  | cons node rest ih =>
      simp [ih, nodeRowsStep_eq, concatRows_append, String.append_assoc]

/-- The link loop appends the rows of all links. -/
theorem foldl_linkRows (ls : List Link) (acc : String) :
    ls.foldl linkRowsStep acc
      = acc ++ concatRows (ls.flatMap (fun link => link.urls.map (fun u =>
          (getLinkId link.source link.target link.relation, u)))) := by
  induction ls generalizing acc with
  | nil => simp [concatRows]
  | cons link rest ih =>
      simp [ih, linkRowsStep_eq, concatRows_append, String.append_assoc]

/-- The export is the header followed by the concatenated rows of the
export pairs. -/
theorem saveUrlsToCsv_render (g : Graph) :
    saveUrlsToCsv g = "Identifier,URL\n" ++ concatRows (exportPairs g) := by
  rw [saveUrlsToCsv_eq_foldl, foldl_linkRows, foldl_nodeRows, exportPairs,
    concatRows_append, String.append_assoc]

/-- C6 amended: the export is the `Identifier,URL` header followed by one
row per url (node rows first, then link rows); in each row only the URL
field is escaped per the standard CSV quoting rule — wrapped in double
quotes with embedded double quotes doubled, see `escapeCsv` and
`escapeQuotes` — while the identifier field is emitted verbatim, without
any escaping (see `renderRow`). -/
theorem export_header_and_quoted_rows (g : Graph) :
    saveUrlsToCsv g = "Identifier,URL\n" ++ concatRows (exportPairs g) :=
  saveUrlsToCsv_render g

/-- C6 counterexample: an identifier containing the delimiter is written
unescaped — the exported row for node id `a,b` is `a,b,"u"`, not
`"a,b","u"`, so re-reading the row per the CSV rule truncates the
identifier to `a`. -/
theorem export_identifier_not_escaped_cex :
    saveUrlsToCsv
        { nodes := [{ id := "a,b", title := "T", description := "", urls := ["u"] }],
          links := [] }
      = "Identifier,URL\na,b,\"u\"\n"
    ∧ saveUrlsToCsv
        { nodes := [{ id := "a,b", title := "T", description := "", urls := ["u"] }],
          links := [] }
      ≠ "Identifier,URL\n\"a,b\",\"u\"\n"
    ∧ (parseUrlsCsv (saveUrlsToCsv
        { nodes := [{ id := "a,b", title := "T", description := "", urls := ["u"] }],
          links := [] })).map UrlRecord.identifier = ["a"] := by
  decide

/-- Every character of the escaped url body is a character of the url or a
double quote. -/
theorem mem_escapeQuotes (cs : List Char) (c : Char) (h : c ∈ escapeQuotes cs) :
    c ∈ cs ∨ c = '"' := by
  induction cs with
  | nil =>
      simp [escapeQuotes] at h
  | cons a rest ih =>
      by_cases ha : a = '"'
      · rw [show escapeQuotes (a :: rest) = '"' :: '"' :: escapeQuotes rest from by
          simp [escapeQuotes, ha]] at h
        rcases List.mem_cons.mp h with rfl | h2
        · exact Or.inr rfl
        · rcases List.mem_cons.mp h2 with rfl | h3
          · exact Or.inr rfl
          · rcases ih h3 with hm | he
            · exact Or.inl (List.mem_cons_of_mem _ hm)
            · exact Or.inr he
      · rw [show escapeQuotes (a :: rest) = a :: escapeQuotes rest from by
          simp [escapeQuotes, ha]] at h
        rcases List.mem_cons.mp h with rfl | h2
        · exact Or.inl (List.mem_cons_self _ _)
        · rcases ih h2 with hm | he
          · exact Or.inl (List.mem_cons_of_mem _ hm)
          · exact Or.inr he

/-- Splitting off one newline-terminated line. -/
theorem splitLines_append (a rest : List Char) (h : '\n' ∉ a) :
    splitLines (a ++ '\n' :: rest) = a :: splitLines rest := by
  induction a with
  | nil =>
      simp [splitLines]
  | cons c cs ih =>
      have hc : ¬ c = '\n' := fun e => h (by simp [e])
      have h' : '\n' ∉ cs := fun hm => h (List.mem_cons_of_mem _ hm)
      rw [List.cons_append,
        show splitLines (c :: (cs ++ '\n' :: rest))
          = match splitLines (cs ++ '\n' :: rest) with
            | [] => [[c]]
            | l :: ls => (c :: l) :: ls from by simp [splitLines, hc],
        ih h']

/-- Unquoting at a non-quote character keeps it and continues. -/
theorem unquote_cons_ne (a : Char) (rest : List Char) (ha : ¬ a = '"') :
    unquote (a :: rest) = a :: unquote rest := by
  rw [unquote.eq_def]
  dsimp only
  rw [if_neg ha]

/-- Unquoting at a doubled quote yields one literal quote and continues. -/
theorem unquote_quote_quote (rest : List Char) :
    unquote ('"' :: '"' :: rest) = '"' :: unquote rest := by
  rw [unquote.eq_def]
  dsimp only
  rw [if_pos rfl, if_pos rfl]

/-- Unquoting the escaped field body followed by the closing quote
recovers the original characters. -/
theorem unquote_escapeQuotes (cs : List Char) :
    unquote (escapeQuotes cs ++ ['"']) = cs := by
  induction cs with
  | nil => decide
  | cons a rest ih =>
      by_cases ha : a = '"'
      · subst ha
        rw [show escapeQuotes ('"' :: rest) = '"' :: '"' :: escapeQuotes rest from by
            simp [escapeQuotes],
          List.cons_append, List.cons_append, unquote_quote_quote, ih]
      · rw [show escapeQuotes (a :: rest) = a :: escapeQuotes rest from by
            simp [escapeQuotes, ha],
          List.cons_append, unquote_cons_ne a _ ha, ih]

/-- takeWhile and dropWhile split an append at the first failing
character. -/
theorem takeWhile_dropWhile_append (p : Char → Bool) (xs : List Char) (y : Char)
    (ys : List Char) (hxs : ∀ c ∈ xs, p c = true) (hy : p y = false) :
    (xs ++ y :: ys).takeWhile p = xs ∧ (xs ++ y :: ys).dropWhile p = y :: ys := by
  induction xs with
  | nil => simp [List.takeWhile_cons, List.dropWhile_cons, hy]
  | cons a as ih =>
      have ha : p a = true := hxs a (List.mem_cons_self _ _)
      have h' : ∀ c ∈ as, p c = true := fun c hc => hxs c (List.mem_cons_of_mem _ hc)
      obtain ⟨h1, h2⟩ := ih h'
      simp [List.takeWhile_cons, List.dropWhile_cons, ha, h1, h2]

/-- Reading one rendered row recovers the identifier and the url. -/
theorem parseCsvRow_row (i u : String) (hc : ',' ∉ i.data) :
    parseCsvRow (i.data ++ ',' :: '"' :: (escapeQuotes u.data ++ ['"'])) = (i, u) := by
  have hall : ∀ c ∈ i.data, (fun c => decide (c ≠ ',')) c = true := by
    intro c hcm
    simp only [decide_eq_true_eq]
    exact fun e => hc (e ▸ hcm)
  have hy : (fun c => decide (c ≠ ',')) ',' = false := by simp
  obtain ⟨h1, h2⟩ := takeWhile_dropWhile_append (fun c => decide (c ≠ ',')) i.data ','
    ('"' :: (escapeQuotes u.data ++ ['"'])) hall hy
  simp only [parseCsvRow, h1, h2, List.drop_succ_cons, List.drop_zero]
  rw [show unquoteField ('"' :: (escapeQuotes u.data ++ ['"']))
      = (unquote (escapeQuotes u.data ++ ['"'])).asString from rfl]
  rw [unquote_escapeQuotes]
  rfl

/-- The data of one rendered row: identifier characters, comma, quoted
escaped url, newline. -/
theorem renderRow_data (p : String × String) :
    (renderRow p).data
      = (p.1.data ++ ',' :: '"' :: (escapeQuotes p.2.data ++ ['"'])) ++ '\n' :: [] := by
  simp only [renderRow, escapeCsv, String.data_append]
  rw [show ((escapeQuotes p.2.data).asString).data = escapeQuotes p.2.data from rfl]
  simp [List.append_assoc]

/-- Line-splitting the concatenated rows gives one line per pair and one
trailing empty line. -/
theorem splitLines_concatRows (pairs : List (String × String))
    (hid : ∀ p ∈ pairs, '\n' ∉ p.1.data)
    (hurl : ∀ p ∈ pairs, '\n' ∉ p.2.data) :
    splitLines (concatRows pairs).data
      = pairs.map (fun p => p.1.data ++ ',' :: '"' :: (escapeQuotes p.2.data ++ ['"']))
        ++ [[]] := by
  induction pairs with
  | nil => simp [concatRows, splitLines]
  | cons p rest ih =>
      have hp1 : '\n' ∉ p.1.data := hid p (List.mem_cons_self _ _)
      have hp2 : '\n' ∉ p.2.data := hurl p (List.mem_cons_self _ _)
      have hrow : '\n' ∉ (p.1.data ++ ',' :: '"' :: (escapeQuotes p.2.data ++ ['"'])) := by
        intro hm
        rcases List.mem_append.mp hm with hA | hB
        · exact hp1 hA
        · rcases List.mem_cons.mp hB with hcom | hB2
          · exact absurd hcom (by decide)
          · rcases List.mem_cons.mp hB2 with hquo | hB3
            · exact absurd hquo (by decide)
            · rcases List.mem_append.mp hB3 with hesc | hlast
              · rcases mem_escapeQuotes p.2.data '\n' hesc with hm2 | he
                · exact hp2 hm2
                · exact absurd he (by decide)
              · exact absurd (List.mem_singleton.mp hlast) (by decide)
      rw [show concatRows (p :: rest) = renderRow p ++ concatRows rest from rfl,
        String.data_append, renderRow_data, List.append_assoc, List.cons_append,
        List.nil_append, splitLines_append _ _ hrow,
        ih (fun q hq => hid q (List.mem_cons_of_mem _ hq))
          (fun q hq => hurl q (List.mem_cons_of_mem _ hq))]
      rfl

/-- Reading a content whose line-split is known. -/
theorem parseUrlsCsv_eq (content : String) (hdr : List Char) (rows : List (List Char))
    (h : splitLines content.data = hdr :: rows) :
    parseUrlsCsv content
      = (rows.filter (fun l => decide (l ≠ []))).map (fun line =>
          { identifier := (parseCsvRow line).1, url := (parseCsvRow line).2 }) := by
  unfold parseUrlsCsv
  rw [h]

/-- Round trip of the exporter through the Tabular Record Reader: when no
emitted identifier contains a comma or a newline and no emitted url
contains a newline, re-reading the exported text yields exactly the
export pairs as records. -/
theorem parse_saveUrlsToCsv (g : Graph)
    (hid : ∀ p ∈ exportPairs g, ',' ∉ p.1.data ∧ '\n' ∉ p.1.data)
    (hurl : ∀ p ∈ exportPairs g, '\n' ∉ p.2.data) :
    parseUrlsCsv (saveUrlsToCsv g)
      = (exportPairs g).map (fun p => UrlRecord.mk p.1 p.2) := by
  have hsplit : splitLines (saveUrlsToCsv g).data
      = ("Identifier,URL" : String).data
        :: ((exportPairs g).map (fun p =>
              p.1.data ++ ',' :: '"' :: (escapeQuotes p.2.data ++ ['"'])) ++ [[]]) := by
    have hdata : (saveUrlsToCsv g).data
        = ("Identifier,URL" : String).data ++ '\n' :: (concatRows (exportPairs g)).data := by
      rw [saveUrlsToCsv_render]
      rfl
    rw [hdata, splitLines_append _ _ (by decide),
      splitLines_concatRows _ (fun p hp => (hid p hp).2) hurl]
  rw [parseUrlsCsv_eq _ _ _ hsplit, List.filter_append,
    show ([([] : List Char)].filter (fun l => decide (l ≠ []))) = [] from by decide,
    List.append_nil,
    List.filter_eq_self.mpr (by
      intro row hrow
      obtain ⟨p, hp, rfl⟩ := List.mem_map.mp hrow
      simp),
    List.map_map]
  apply List.map_congr_left
  intro p hp
  have hrow := parseCsvRow_row p.1 p.2 (hid p hp).1
  simp [Function.comp, hrow]

/-- Looking up a key in the index rebuilt from parsed pairs selects the
urls of the pairs carrying that key, in order. -/
theorem urlsOrEmpty_mapRecords (pairs : List (String × String)) (k : String) :
    urlsOrEmpty (buildUrlMap (pairs.map (fun p => UrlRecord.mk p.1 p.2))) k
      = (pairs.filter (fun p => decide (p.1 = k))).map Prod.snd := by
  rw [urlsOrEmpty_buildUrlMap, List.filter_map, List.map_map]
  rfl

/-- Filtering the pairs of one entity by key keeps all of them or none,
depending on whether the entity's key matches. -/
theorem filter_pairs_of_key (k mid : String) (us : List String) :
    ((us.map (fun u => (mid, u))).filter (fun p => decide (p.1 = k)))
      = if mid = k then us.map (fun u => (mid, u)) else [] := by
  rw [List.filter_map]
  by_cases h : mid = k
  · rw [if_pos h]
    have he : ((fun p : String × String => decide (p.1 = k)) ∘ (fun u => (mid, u)))
        = fun _ => true := by
      funext u
      simp [Function.comp, h]
    rw [he, List.filter_true]
  · rw [if_neg h]
    have he : ((fun p : String × String => decide (p.1 = k)) ∘ (fun u => (mid, u)))
        = fun _ => false := by
      funext u
      simp [Function.comp, h]
    rw [he, List.filter_false]
    rfl

/-- Selecting the urls at a key from the pair rows of a list of keyed
entities. -/
theorem pairsSelect {α : Type} (key : α → String) (urls : α → List String)
    (l : List α) (k : String) :
    (((l.flatMap (fun a => (urls a).map (fun u => (key a, u)))).filter
        (fun p => decide (p.1 = k))).map Prod.snd)
      = l.flatMap (fun a => if key a = k then urls a else []) := by
  induction l with
  | nil => rfl
  | cons a rest ih =>
      rw [List.flatMap_cons, List.filter_append, List.map_append, ih, List.flatMap_cons]
      congr 1
      rw [filter_pairs_of_key]
      by_cases h : key a = k
      · rw [if_pos h, if_pos h, List.map_map]
        simp [Function.comp]
      · rw [if_neg h, if_neg h]
        rfl

/-- A flatMap all of whose pieces are empty is empty. -/
theorem flatMap_nil_of {β : Type} (f : β → List String) (l : List β)
    (h : ∀ b ∈ l, f b = []) : l.flatMap f = [] := by
  induction l with
  | nil => rfl
  | cons b rest ih =>
      rw [List.flatMap_cons, h b (List.mem_cons_self _ _), List.nil_append]
      exact ih (fun x hx => h x (List.mem_cons_of_mem _ hx))

/-- C3: round-trip law.  Appending a url to a node and a url to an edge of
a graph (the `element.urls.push` mutation of the Add handler), exporting
through `saveUrlsToCsv`, re-reading the export through the Tabular Record
Reader and rebuilding the Resource Index with `buildUrlMap` yields an
index whose `urlsFor` (`urlsOrEmpty`) returns, at the node's id, exactly
the node's urls with the appended url last, and, at the edge's composite
key, exactly the edge's urls with the appended url last — order preserved,
nothing lost, nothing duplicated.  The hypotheses are the CSV
well-formedness conditions (no delimiter, quote or newline inside any
emitted identifier, no newline inside any url) and key disjointness (the
node's id and the edge's composite key name no other entity). -/
theorem append_export_rebuild_roundtrip
    (np ns : List Node) (n : Node) (lp ls : List Link) (e : Link) (u1 u2 : String)
    (hids : ∀ m ∈ np ++ n :: ns, ',' ∉ m.id.data ∧ '"' ∉ m.id.data ∧ '\n' ∉ m.id.data)
    (hkeys : ∀ l ∈ lp ++ e :: ls,
      ',' ∉ (getLinkId l.source l.target l.relation).data
      ∧ '"' ∉ (getLinkId l.source l.target l.relation).data
      ∧ '\n' ∉ (getLinkId l.source l.target l.relation).data)
    (hnurls : ∀ m ∈ np ++ n :: ns, ∀ u ∈ m.urls, '\n' ∉ u.data)
    (hlurls : ∀ l ∈ lp ++ e :: ls, ∀ u ∈ l.urls, '\n' ∉ u.data)
    (hu1 : '\n' ∉ u1.data) (hu2 : '\n' ∉ u2.data)
    (hothernodes : ∀ m ∈ np ++ ns, m.id ≠ n.id)
    (hlinksnot : ∀ l ∈ lp ++ e :: ls, getLinkId l.source l.target l.relation ≠ n.id)
    (hotherlinks : ∀ l ∈ lp ++ ls,
      getLinkId l.source l.target l.relation ≠ getLinkId e.source e.target e.relation)
    (hnodesnot : ∀ m ∈ np ++ n :: ns, m.id ≠ getLinkId e.source e.target e.relation) :
    urlsOrEmpty (buildUrlMap (parseUrlsCsv (saveUrlsToCsv
        { nodes := np ++ pushUrlToNode n u1 :: ns,
          links := lp ++ pushUrlToLink e u2 :: ls }))) n.id
      = n.urls ++ [u1]
    ∧ urlsOrEmpty (buildUrlMap (parseUrlsCsv (saveUrlsToCsv
        { nodes := np ++ pushUrlToNode n u1 :: ns,
          links := lp ++ pushUrlToLink e u2 :: ls })))
        (getLinkId e.source e.target e.relation)
      = e.urls ++ [u2] := by
  have hmemN : ∀ m ∈ np ++ pushUrlToNode n u1 :: ns,
      (',' ∉ m.id.data ∧ '"' ∉ m.id.data ∧ '\n' ∉ m.id.data)
      ∧ (∀ u ∈ m.urls, '\n' ∉ u.data) := by
    intro m hm
    rcases List.mem_append.mp hm with hmp | hmc
    · exact ⟨hids m (List.mem_append_left _ hmp),
        hnurls m (List.mem_append_left _ hmp)⟩
    · rcases List.mem_cons.mp hmc with rfl | hms
      · refine ⟨hids n (by simp), ?_⟩
        intro u hu
        rcases List.mem_append.mp hu with h | h
        · exact hnurls n (by simp) u h
        · rw [List.mem_singleton.mp h]
          exact hu1
      · exact ⟨hids m (by simp [hms]), hnurls m (by simp [hms])⟩
  have hmemL : ∀ l ∈ lp ++ pushUrlToLink e u2 :: ls,
      (',' ∉ (getLinkId l.source l.target l.relation).data
        ∧ '"' ∉ (getLinkId l.source l.target l.relation).data
        ∧ '\n' ∉ (getLinkId l.source l.target l.relation).data)
      ∧ (∀ u ∈ l.urls, '\n' ∉ u.data) := by
    intro l hl
    rcases List.mem_append.mp hl with hlp | hlc
    · exact ⟨hkeys l (List.mem_append_left _ hlp),
        hlurls l (List.mem_append_left _ hlp)⟩
    · rcases List.mem_cons.mp hlc with rfl | hls
      · refine ⟨hkeys e (by simp), ?_⟩
        intro u hu
        rcases List.mem_append.mp hu with h | h
        · exact hlurls e (by simp) u h
        · rw [List.mem_singleton.mp h]
          exact hu2
      · exact ⟨hkeys l (by simp [hls]), hlurls l (by simp [hls])⟩
  have hpairs : ∀ p ∈ exportPairs
      { nodes := np ++ pushUrlToNode n u1 :: ns, links := lp ++ pushUrlToLink e u2 :: ls },
      (',' ∉ p.1.data ∧ '\n' ∉ p.1.data) ∧ '\n' ∉ p.2.data := by
    intro p hp
    rw [exportPairs] at hp
    rcases List.mem_append.mp hp with hA | hB
    · obtain ⟨m, hm, hpm⟩ := List.mem_flatMap.mp hA
      obtain ⟨u, hu, rfl⟩ := List.mem_map.mp hpm
      obtain ⟨⟨hc, -, hn2⟩, hus⟩ := hmemN m hm
      exact ⟨⟨hc, hn2⟩, hus u hu⟩
    · obtain ⟨l, hl, hpl⟩ := List.mem_flatMap.mp hB
      obtain ⟨u, hu, rfl⟩ := List.mem_map.mp hpl
      obtain ⟨⟨hc, -, hn2⟩, hus⟩ := hmemL l hl
      exact ⟨⟨hc, hn2⟩, hus u hu⟩
  have hparse := parse_saveUrlsToCsv
    { nodes := np ++ pushUrlToNode n u1 :: ns, links := lp ++ pushUrlToLink e u2 :: ls }
    (fun p hp => (hpairs p hp).1) (fun p hp => (hpairs p hp).2)
  constructor
  · rw [hparse, urlsOrEmpty_mapRecords, exportPairs, List.filter_append, List.map_append,
      pairsSelect Node.id Node.urls,
      pairsSelect (fun l => getLinkId l.source l.target l.relation) Link.urls]
    have hB : (lp ++ pushUrlToLink e u2 :: ls).flatMap
        (fun l => if getLinkId l.source l.target l.relation = n.id then l.urls else [])
        = [] := by
      apply flatMap_nil_of
      intro b hb
      rcases List.mem_append.mp hb with h | h
      · exact if_neg (hlinksnot b (List.mem_append_left _ h))
      · rcases List.mem_cons.mp h with rfl | h2
        · exact if_neg (hlinksnot e (by simp))
        · exact if_neg (hlinksnot b (List.mem_append_right _ (List.mem_cons_of_mem _ h2)))
    rw [hB, List.append_nil]
    simp only [List.flatMap_append, List.flatMap_cons]
    rw [flatMap_nil_of _ np (fun b hb => if_neg (hothernodes b (List.mem_append_left _ hb))),
      flatMap_nil_of _ ns (fun b hb => if_neg (hothernodes b (List.mem_append_right _ hb)))]
    rw [if_pos (show (pushUrlToNode n u1).id = n.id from rfl)]
    simp [pushUrlToNode]
  · rw [hparse, urlsOrEmpty_mapRecords, exportPairs, List.filter_append, List.map_append,
      pairsSelect Node.id Node.urls,
      pairsSelect (fun l => getLinkId l.source l.target l.relation) Link.urls]
    have hA : (np ++ pushUrlToNode n u1 :: ns).flatMap
        (fun m => if m.id = getLinkId e.source e.target e.relation then m.urls else [])
        = [] := by
      apply flatMap_nil_of
      intro b hb
      rcases List.mem_append.mp hb with h | h
      · exact if_neg (hnodesnot b (List.mem_append_left _ h))
      · rcases List.mem_cons.mp h with rfl | h2
        · exact if_neg (hnodesnot n (by simp))
        · exact if_neg (hnodesnot b (List.mem_append_right _ (List.mem_cons_of_mem _ h2)))
    rw [hA, List.nil_append]
    simp only [List.flatMap_append, List.flatMap_cons]
    rw [flatMap_nil_of _ lp (fun b hb => if_neg (hotherlinks b (List.mem_append_left _ hb))),
      flatMap_nil_of _ ls (fun b hb => if_neg (hotherlinks b (List.mem_append_right _ hb)))]
    rw [if_pos (show getLinkId (pushUrlToLink e u2).source (pushUrlToLink e u2).target
        (pushUrlToLink e u2).relation = getLinkId e.source e.target e.relation from rfl)]
    simp [pushUrlToLink]

/-- Witness for C3 at the spec's scenario: on the graph with nodes `1`,
`1.1` and the edge `(1, 1.1, "sub topic")` (all urls initially empty),
appending `https://x.test/a` to node `1` and `https://y.test/b` to the
edge, exporting, re-reading and rebuilding the index returns exactly those
urls at the node id and at the composite key. -/
theorem append_export_rebuild_roundtrip_witness :
    urlsOrEmpty (buildUrlMap (parseUrlsCsv (saveUrlsToCsv
        { nodes := [] ++ pushUrlToNode ⟨"1", "Root", "", []⟩ "https://x.test/a"
            :: [⟨"1.1", "Child", "", []⟩],
          links := [] ++ pushUrlToLink
            ⟨.ofId "1", .ofId "1.1", "sub topic", "hierarchical", []⟩ "https://y.test/b"
            :: [] }))) "1"
      = ["https://x.test/a"]
    ∧ urlsOrEmpty (buildUrlMap (parseUrlsCsv (saveUrlsToCsv
        { nodes := [] ++ pushUrlToNode ⟨"1", "Root", "", []⟩ "https://x.test/a"
            :: [⟨"1.1", "Child", "", []⟩],
          links := [] ++ pushUrlToLink
            ⟨.ofId "1", .ofId "1.1", "sub topic", "hierarchical", []⟩ "https://y.test/b"
            :: [] })))
        (getLinkId (.ofId "1") (.ofId "1.1") "sub topic")
      = ["https://y.test/b"] :=
  append_export_rebuild_roundtrip [] [⟨"1.1", "Child", "", []⟩] ⟨"1", "Root", "", []⟩
    [] [] ⟨.ofId "1", .ofId "1.1", "sub topic", "hierarchical", []⟩
    "https://x.test/a" "https://y.test/b"
    (by decide) (by decide) (by decide) (by decide) (by decide) (by decide)
    (by decide) (by decide) (by decide) (by decide)

end RFMindMap
